import Mathlib

/-!
Verification of the Data-Extraction scraper core: a shallow embedding of
`scraper.py` (nested-document extraction, identity-map building, merge/dedup
store) and `run_schedule.py` (time resolution, activity window, status
summary), with theorems settling the specified properties.
-/

set_option maxHeartbeats 1000000

namespace Scraper

/-- A JSON-like document: the shape of the parsed `__NEXT_DATA__` payload
(`RawDocument` in the spec): scalars, arrays, and objects given as ordered
field lists (Python dict insertion order). -/
inductive J where
  | null : J
  | bool (b : Bool) : J
  | num (n : Int) : J
  | str (s : String) : J
  | arr (elems : List J) : J
  | obj (fields : List (String × J)) : J

mutual

/-- Boolean structural equality on documents. -/
def beqJ : J → J → Bool
  | .null, .null => true
  | .bool a, .bool b => a == b
  | .num a, .num b => a == b
  | .str a, .str b => a == b
  | .arr a, .arr b => beqArr a b
  | .obj a, .obj b => beqObj a b
  | _, _ => false

/-- Boolean equality on lists of documents. -/
def beqArr : List J → List J → Bool
  | [], [] => true
  | a :: as, b :: bs => beqJ a b && beqArr as bs
  | _, _ => false

/-- Boolean equality on field lists. -/
def beqObj : List (String × J) → List (String × J) → Bool
  | [], [] => true
  | (k1, v1) :: as, (k2, v2) :: bs => k1 == k2 && beqJ v1 v2 && beqObj as bs
  | _, _ => false

end

mutual

theorem beqJ_refl : ∀ a : J, beqJ a a = true
  | .null => rfl
  | .bool b => by simp [beqJ]
  | .num n => by simp [beqJ]
  | .str s => by simp [beqJ]
  | .arr a => by simp [beqJ, beqArr_refl a]
  | .obj a => by simp [beqJ, beqObj_refl a]

theorem beqArr_refl : ∀ a : List J, beqArr a a = true
  | [] => rfl
  | a :: as => by simp [beqArr, beqJ_refl a, beqArr_refl as]

theorem beqObj_refl : ∀ a : List (String × J), beqObj a a = true
  | [] => rfl
  | (k, v) :: as => by simp [beqObj, beqJ_refl v, beqObj_refl as]

end

mutual

theorem beqJ_eq : ∀ a b : J, beqJ a b = true → a = b
  | .null, .null, _ => rfl
  | .bool a, .bool b, h => by simpa [beqJ] using h
  | .num a, .num b, h => by simpa [beqJ] using h
  | .str a, .str b, h => by simpa [beqJ] using h
  | .arr a, .arr b, h => by
      simp only [beqJ] at h
      exact congrArg J.arr (beqArr_eq a b h)
  | .obj a, .obj b, h => by
      simp only [beqJ] at h
      exact congrArg J.obj (beqObj_eq a b h)
  | .null, .bool _, h | .null, .num _, h | .null, .str _, h | .null, .arr _, h
  | .null, .obj _, h | .bool _, .null, h | .bool _, .num _, h | .bool _, .str _, h
  | .bool _, .arr _, h | .bool _, .obj _, h | .num _, .null, h | .num _, .bool _, h
  | .num _, .str _, h | .num _, .arr _, h | .num _, .obj _, h | .str _, .null, h
  | .str _, .bool _, h | .str _, .num _, h | .str _, .arr _, h | .str _, .obj _, h
  | .arr _, .null, h | .arr _, .bool _, h | .arr _, .num _, h | .arr _, .str _, h
  | .arr _, .obj _, h | .obj _, .null, h | .obj _, .bool _, h | .obj _, .num _, h
  | .obj _, .str _, h | .obj _, .arr _, h => by simp [beqJ] at h

theorem beqArr_eq : ∀ a b : List J, beqArr a b = true → a = b
  | [], [], _ => rfl
  | a :: as, b :: bs, h => by
      simp only [beqArr, Bool.and_eq_true] at h
      rw [beqJ_eq a b h.1, beqArr_eq as bs h.2]
  | [], _ :: _, h | _ :: _, [], h => by simp [beqArr] at h

theorem beqObj_eq : ∀ a b : List (String × J), beqObj a b = true → a = b
  | [], [], _ => rfl
  | (k1, v1) :: as, (k2, v2) :: bs, h => by
      simp only [beqObj, Bool.and_eq_true, beq_iff_eq] at h
      rw [h.1.1, beqJ_eq v1 v2 h.1.2, beqObj_eq as bs h.2]
  | [], _ :: _, h | _ :: _, [], h => by simp [beqObj] at h

end

instance : DecidableEq J := fun a b =>
  if h : beqJ a b = true then isTrue (beqJ_eq a b h)
  else isFalse (fun he => h (he ▸ beqJ_refl a))

/-- The fixed required-field set `REQUIRED_KEYS` of `scraper.py`. -/
def REQUIRED_KEYS : List String :=
  ["wagonX", "wagonY", "wagonZone", "pitchLine", "pitchLength",
   "shotType", "shotControl", "inningNumber", "oversUnique", "oversActual",
   "overNumber", "ballNumber", "totalRuns", "batsmanRuns", "isFour",
   "isSix", "isWicket", "byes", "legbyes", "wides", "noballs",
   "penalties", "timestamp", "batsmanPlayerId", "nonStrikerPlayerId",
   "bowlerPlayerId", "totalInningRuns", "totalInningWickets"]

/-- Key membership in a field list (`k in obj.keys()`). -/
def hasKey (fields : List (String × J)) (k : String) : Bool :=
  fields.any (fun p => p.1 == k)

/-- `REQUIRED_KEYS.issubset(set(obj.keys()))` of `extract_valid_entries`. -/
def requiredSubset (fields : List (String × J)) : Bool :=
  REQUIRED_KEYS.all (fun k => hasKey fields k)

mutual

/-- `extract_valid_entries(obj)` of `scraper.py`: depth-first walk returning
every dict node whose key set contains all of `REQUIRED_KEYS`, self first,
then the values in field order; lists are walked but never captured. -/
def extract_valid_entries : J → List J
  | .obj fields =>
      (if requiredSubset fields then [J.obj fields] else []) ++ extractFields fields
  | .arr elems => extractList elems
  | _ => []

/-- Walk of `obj.values()` inside `extract_valid_entries`. -/
def extractFields : List (String × J) → List J
  | [] => []
  | (_, v) :: rest => extract_valid_entries v ++ extractFields rest

/-- Walk of a list node inside `extract_valid_entries`. -/
def extractList : List J → List J
  | [] => []
  | x :: rest => extract_valid_entries x ++ extractList rest

end

mutual

/-- Pre-order (depth-first) enumeration of every node of a document:
the node itself, then the nodes of its children left to right. -/
def preorder : J → List J
  | .obj fields => J.obj fields :: preorderFields fields
  | .arr elems => J.arr elems :: preorderList elems
  | x => [x]

/-- Pre-order enumeration of the value nodes of a field list. -/
def preorderFields : List (String × J) → List J
  | [] => []
  | (_, v) :: rest => preorder v ++ preorderFields rest

/-- Pre-order enumeration of the nodes of a list of documents. -/
def preorderList : List J → List J
  | [] => []
  | x :: rest => preorder x ++ preorderList rest

end

/-- A node is an event node when it is a map whose key set contains every
required field. -/
def isEventNode : J → Bool
  | .obj fields => requiredSubset fields
  | _ => false

/-- `obj.get(k)` on a field list: the value bound to `k`, `null` when the key
is absent (modelling Python returning None). -/
def dictGet (fields : List (String × J)) (k : String) : J :=
  match fields.find? (fun p => p.1 == k) with
  | some p => p.2
  | none => J.null

/-- Python truthiness of a JSON value. -/
def truthy : J → Bool
  | .null => false
  | .bool b => b
  | .num n => n != 0
  | .str s => s != ""
  | .arr l => !l.isEmpty
  | .obj f => !f.isEmpty

/-- Python `a or b`: `a` when truthy, otherwise `b`. -/
def pyOr (a b : J) : J := if truthy a then a else b

/-- The resolved display name of `extract_object_id_mapping`:
`obj.get("name") or obj.get("fullName") or obj.get("shortName")`. -/
def nameOf (fields : List (String × J)) : J :=
  pyOr (dictGet fields "name") (pyOr (dictGet fields "fullName") (dictGet fields "shortName"))

/-- One identity-map value: objectId and resolved display name. -/
structure IdEntry where
  objectId : J
  name : J
deriving DecidableEq

/-- The identity-map binding contributed by a dict node that carries both an
"id" and an "objectId" field, keyed by the id value. -/
def selfEntry (fields : List (String × J)) : Option (J × IdEntry) :=
  if hasKey fields "id" && hasKey fields "objectId" then
    some (dictGet fields "id", ⟨dictGet fields "objectId", nameOf fields⟩)
  else none

/-- The binding contributed by a nested "player" dict with its own id and
objectId (the special case of `extract_object_id_mapping`). -/
def playerEntry (fields : List (String × J)) : Option (J × IdEntry) :=
  match fields.find? (fun p => p.1 == "player") with
  | some (_, .obj p) => selfEntry p
  | _ => none

/-- A single optional binding viewed as a finite map. -/
def entryMap : Option (J × IdEntry) → J → Option IdEntry
  | none, _ => none
  | some (k, v), q => if q = k then some v else none

/-- `base.update(over)` on finite maps: bindings of `over` override `base`. -/
def updOver (base over : J → Option IdEntry) (q : J) : Option IdEntry :=
  match over q with
  | some v => some v
  | none => base q

mutual

/-- `extract_object_id_mapping(obj)` of `scraper.py`, as the finite map it
finally contains: the node contributes its own id binding, then the nested
"player" binding, then the walks of its values in field order, each later
contribution overriding earlier ones (`dict.update`). -/
def extract_object_id_mapping : J → J → Option IdEntry
  | .obj fields =>
      updOver (updOver (entryMap (selfEntry fields)) (entryMap (playerEntry fields)))
        (mappingFields fields)
  | .arr elems => mappingList elems
  | _ => fun _ => none

/-- Walk of `obj.values()` inside `extract_object_id_mapping`. -/
def mappingFields : List (String × J) → J → Option IdEntry
  | [] => fun _ => none
  | (_, v) :: rest => updOver (extract_object_id_mapping v) (mappingFields rest)

/-- Walk of a list node inside `extract_object_id_mapping`. -/
def mappingList : List J → J → Option IdEntry
  | [] => fun _ => none
  | x :: rest => updOver (extract_object_id_mapping x) (mappingList rest)

end

mutual

/-- The variant of `extract_object_id_mapping` with the nested-"player"
clause removed, following the wording of the refinement claim. -/
def mappingNoPlayer : J → J → Option IdEntry
  | .obj fields => updOver (entryMap (selfEntry fields)) (mappingNPFields fields)
  | .arr elems => mappingNPList elems
  | _ => fun _ => none

/-- Walk of `obj.values()` inside `mappingNoPlayer`. -/
def mappingNPFields : List (String × J) → J → Option IdEntry
  | [] => fun _ => none
  | (_, v) :: rest => updOver (mappingNoPlayer v) (mappingNPFields rest)

/-- Walk of a list node inside `mappingNoPlayer`. -/
def mappingNPList : List J → J → Option IdEntry
  | [] => fun _ => none
  | x :: rest => updOver (mappingNoPlayer x) (mappingNPList rest)

end

mutual

/-- The identity-map bindings of a document in visit order: the node binding,
then the nested "player" binding, then the bindings of the values in field
order. -/
def idEntries : J → List (J × IdEntry)
  | .obj fields =>
      (selfEntry fields).toList ++ (playerEntry fields).toList ++ idEntriesFields fields
  | .arr elems => idEntriesList elems
  | _ => []

/-- Visit-order bindings of the values of a field list. -/
def idEntriesFields : List (String × J) → List (J × IdEntry)
  | [] => []
  | (_, v) :: rest => idEntries v ++ idEntriesFields rest

/-- Visit-order bindings of the elements of a list node. -/
def idEntriesList : List J → List (J × IdEntry)
  | [] => []
  | x :: rest => idEntries x ++ idEntriesList rest

end

/-- Lookup of the last binding of a key in a binding list (the binding the
last visit wrote). -/
def lastFind : List (J × IdEntry) → J → Option IdEntry
  | [], _ => none
  | p :: rest, q =>
      match lastFind rest q with
      | some v => some v
      | none => if q = p.1 then some p.2 else none

end Scraper

namespace Store

/-- A stored or scraped row: an ordered association of column names to
values, where a binding to `none` models an explicit null (NaN) and an
absent column also reads as NaN. -/
abbrev Rec (V : Type) := List (String × Option V)

/-- The NaN-collapsing cell read of a row at a column: an absent column and
a null binding both read as `none`, as both are NaN in a DataFrame. -/
def lookupR {V : Type} (r : Rec V) (c : String) : Option V :=
  match r.find? (fun p => p.1 == c) with
  | some p => p.2
  | none => none

/-- A DataFrame: an explicit column list plus rows.  The column list is kept
separately because pandas preserves an all-NaN column through the CSV
round-trip. -/
structure DF (V : Type) where
  cols : List String
  rows : List (Rec V)

/-- Column union of `pd.concat`: the left columns, then the new right ones. -/
def unionCols (a b : List String) : List String :=
  a ++ b.filter (fun c => !a.contains c)

/-- The tuple of cell values of a row at a list of columns: the comparison
key of `drop_duplicates(subset=S)`. -/
def keyOf {V : Type} (S : List String) (r : Rec V) : List (Option V) :=
  S.map (fun c => lookupR r c)

/-- The columns of the natural key, in the order of `append_and_save`. -/
def NATURAL_COLS : List String := ["inningNumber", "overNumber", "ballNumber"]

/-- The natural-key tuple of a row. -/
def natKey {V : Type} (r : Rec V) : List (Option V) := keyOf NATURAL_COLS r

/-- `drop_duplicates(keep="last")` under the comparison key `f`: a row is
kept exactly when no later row has the same key, so the last occurrence of
each key survives, in its original position. -/
def keepLast {α κ : Type} [DecidableEq κ] (f : α → κ) : List α → List α
  | [] => []
  | a :: rest =>
      if rest.any (fun b => decide (f b = f a)) then keepLast f rest
      else a :: keepLast f rest

/-- The column subset the deduplication of `append_and_save` compares:
the natural-key columns present among the combined columns
(`drop_cols = [c for c in [...] if c in df_combined.columns]`), or every
column when none of them is present. -/
def mergeSubset (cols : List String) : List String :=
  let dropCols := NATURAL_COLS.filter (fun c => cols.contains c)
  if dropCols.isEmpty then cols else dropCols

/-- `append_and_save(match_id, df_new)` of `scraper.py`, over the persisted
dataset it reads: when the new frame has no rows it returns the dataset
unchanged with `written = false`; otherwise it concatenates stored rows then
new rows, deduplicates keeping the last occurrence — comparing the columns
of `mergeSubset` — writes the result back and returns `written = true`. -/
def append_and_save {V : Type} [DecidableEq V] (stored dfNew : DF V) : DF V × Bool :=
  if dfNew.rows.isEmpty then (stored, false)
  else
    let combinedCols := unionCols stored.cols dfNew.cols
    (⟨combinedCols, keepLast (keyOf (mergeSubset combinedCols)) (stored.rows ++ dfNew.rows)⟩,
     true)

/-- The last element of `l` whose key under `f` is `k`, if any. -/
def lastWith {α κ : Type} [DecidableEq κ] (f : α → κ) (k : κ) : List α → Option α
  | [] => none
  | a :: rest =>
      match lastWith f k rest with
      | some b => some b
      | none => if f a = k then some a else none

end Store

namespace Sched

/-- Gregorian leap year. -/
def isLeap (y : Nat) : Bool := (y % 4 == 0 && y % 100 != 0) || (y % 400 == 0)

/-- Days in a month. -/
def daysInMonth (y m : Nat) : Nat :=
  if m == 2 then (if isLeap y then 29 else 28)
  else if m == 4 || m == 6 || m == 9 || m == 11 then 30
  else 31

/-- Days in a year. -/
def daysInYear (y : Nat) : Nat := if isLeap y then 366 else 365

/-- Days from 1970-01-01 to the start of year `y`. -/
def daysBeforeYear (y : Nat) : Nat :=
  ((List.range (y - 1970)).map (fun i => daysInYear (1970 + i))).sum

/-- Days from the start of year `y` to the start of month `m`. -/
def daysBeforeMonth (y m : Nat) : Nat :=
  ((List.range (m - 1)).map (fun i => daysInMonth y (i + 1))).sum

/-- Seconds since the epoch of a civil date-time read as wall-clock time. -/
def civilSecs (y m d hh mi ss : Nat) : Int :=
  (((daysBeforeYear y + daysBeforeMonth y m + (d - 1)) * 86400
    + hh * 3600 + mi * 60 + ss : Nat) : Int)

/-- The result of parsing a timestamp string: wall-clock seconds plus the
explicit UTC offset in seconds when the string carried zone information. -/
structure ParsedTS where
  naive : Int
  tzoff : Option Int
deriving DecidableEq

/-- Split a character list at every occurrence of `c`, the accumulator
holding the current piece reversed. -/
def splitOnCharAux (c : Char) : List Char → List Char → List (List Char)
  | [], acc => [acc.reverse]
  | x :: xs, acc =>
      if x = c then acc.reverse :: splitOnCharAux c xs []
      else splitOnCharAux c xs (x :: acc)

/-- Split a character list at every occurrence of `c`. -/
def splitOnChar (c : Char) (l : List Char) : List (List Char) :=
  splitOnCharAux c l []

/-- Read a nonempty all-digit character list as a number. -/
def digitsToNat? (l : List Char) : Option Nat :=
  if l.isEmpty then none
  else if l.all Char.isDigit then
    some (l.foldl (fun acc c => acc * 10 + (c.toNat - 48)) 0)
  else none

/-- Parse a zone offset body "HH:MM" to seconds. -/
def parseHM (l : List Char) : Option Int :=
  match splitOnChar ':' l with
  | [h, m] => do
      let hn ← digitsToNat? h
      let mn ← digitsToNat? m
      if hn ≤ 23 && mn ≤ 59 then pure ((hn * 3600 + mn * 60 : Nat) : Int) else none
  | _ => none

/-- Split the time part of an ISO string into its base and explicit offset:
a trailing "Z", a "+HH:MM" suffix, or a "-HH:MM" suffix. -/
def splitOffset (t : List Char) : Option (List Char × Option Int) :=
  if t.getLast? = some 'Z' then some (t.dropLast, some 0)
  else
    match splitOnChar '+' t with
    | [base, off] => do
        let o ← parseHM off
        pure (base, some o)
    | [base] =>
        match splitOnChar '-' base with
        | [b, off] => do
            let o ← parseHM off
            pure (b, some (-o))
        | [b] => pure (b, none)
        | _ => none
    | _ => none

/-- Parse "HH:MM:SS". -/
def parseHMS (t : List Char) : Option (Nat × Nat × Nat) :=
  match splitOnChar ':' t with
  | [h, m, s] => do
      let hn ← digitsToNat? h
      let mn ← digitsToNat? m
      let sn ← digitsToNat? s
      if hn ≤ 23 && mn ≤ 59 && sn ≤ 59 then pure (hn, mn, sn) else none
  | _ => none

/-- Parse "YYYY-MM-DD" (years from 1970 on). -/
def parseDate (t : List Char) : Option (Nat × Nat × Nat) :=
  match splitOnChar '-' t with
  | [y, m, d] => do
      let yn ← digitsToNat? y
      let mn ← digitsToNat? m
      let dn ← digitsToNat? d
      if 1970 ≤ yn && 1 ≤ mn && mn ≤ 12 && 1 ≤ dn && dn ≤ daysInMonth yn mn then
        pure (yn, mn, dn)
      else none
  | _ => none

/-- Model of the external `dateutil.parser.isoparse` on the date-time shapes
the schedule uses: a date, optionally followed by "T" and a time, optionally
carrying an explicit zone; anything else fails to parse. -/
def isoparse (s : String) : Option ParsedTS :=
  match splitOnChar 'T' s.toList with
  | [ds] => do
      let (y, m, d) ← parseDate ds
      pure ⟨civilSecs y m d 0 0 0, none⟩
  | [ds, ts] => do
      let (y, m, d) ← parseDate ds
      let (base, off) ← splitOffset ts
      let (hh, mi, ss) ← parseHMS base
      pure ⟨civilSecs y m d hh mi ss, off⟩
  | _ => none

/-- The fixed default zone: India Standard Time, UTC+5:30, in seconds. -/
def IST_OFFSET : Int := 19800

/-- An aware date-time: wall-clock seconds plus the zone offset in effect. -/
structure AwareDT where
  naive : Int
  off : Int
deriving DecidableEq

/-- The UTC instant of an aware date-time (`astimezone(timezone.utc)`). -/
def toUTC (t : AwareDT) : Int := t.naive - t.off

/-- `parse_time_guess_ist(timestr)` of `run_schedule.py`: parse an ISO-ish
string; when zone information is missing, attach IST; `none` models the
raised parse error. -/
def parse_time_guess_ist (timestr : String) : Option AwareDT :=
  match isoparse timestr with
  | none => none
  | some p => some ⟨p.naive, p.tzoff.getD IST_OFFSET⟩

/-- A schedule-row value: a cell read from the schedule file, or an aware
date-time written by `summarize_status` into the row. -/
inductive SVal where
  | s : String → SVal
  | dt : AwareDT → SVal
deriving DecidableEq

/-- A schedule row, as the dict `df.to_dict(orient="records")` yields. -/
abbrev Row := List (String × SVal)

/-- `row.get(k)`. -/
def rget (r : Row) (k : String) : Option SVal :=
  (r.find? (fun p => p.1 == k)).map (fun p => p.2)

/-- `row[k] = v`: overwrite in place when the key exists, else append. -/
def rset (r : Row) (k : String) (v : SVal) : Row :=
  if r.any (fun p => p.1 == k) then
    r.map (fun p => if p.1 == k then (k, v) else p)
  else r ++ [(k, v)]

/-- `parse_time_guess_ist(row.get(k))`: a missing field, or one that is not
a string, fails to parse. -/
def parseField (r : Row) (k : String) : Option AwareDT :=
  match rget r k with
  | some (.s t) => parse_time_guess_ist t
  | _ => none

/-- `is_active(match_row, now_utc)` of `run_schedule.py`: parse start and
end (any failure yields false rather than raising), convert to UTC, and
test `start_utc <= now_utc <= end_utc`, inclusive at both ends. -/
def is_active (r : Row) (now_utc : Int) : Bool :=
  match parseField r "start_time", parseField r "end_time" with
  | some s, some e => decide (toUTC s ≤ now_utc) && decide (now_utc ≤ toUTC e)
  | _, _ => false

/-- `str(x)` on an optional row value, as used to build the dataset file
name; the datetime rendering only abstracts the Python repr. -/
def pyStr : Option SVal → String
  | some (.s t) => t
  | some (.dt t) => "dt:" ++ toString t.naive ++ ":" ++ toString t.off
  | none => "None"

/-- The state of a persisted per-match dataset file when the summary reads
its row count. -/
inductive FileState where
  | absent
  | unreadable
  | table (rows : Nat)
deriving DecidableEq

/-- The row count the summary reports for a file state: the dataset length,
and 0 when the file is absent or unreadable. -/
def fileRows : FileState → Nat
  | .absent => 0
  | .unreadable => 0
  | .table n => n

/-- The in-place mutation `summarize_status` applies to one schedule row:
when both times parse, the aware values are stored under `_start_dt` and
`_end_dt`; otherwise the row is left untouched. -/
def normalizeRow (r : Row) : Row :=
  match parseField r "start_time", parseField r "end_time" with
  | some s, some e => rset (rset r "_start_dt" (.dt s)) "_end_dt" (.dt e)
  | _, _ => r

/-- The entries list of `summarize_status`: the rows whose two times parse,
after their mutation. -/
def parsedEntries (schedule : List Row) : List Row :=
  schedule.filterMap (fun r =>
    match parseField r "start_time", parseField r "end_time" with
    | some _, some _ => some (normalizeRow r)
    | _, _ => none)

/-- The UTC instant of the stored `_start_dt` of an entry. -/
def startInstant (r : Row) : Int :=
  match rget r "_start_dt" with
  | some (.dt t) => toUTC t
  | _ => 0

/-- The future entries: those with `_start_dt` strictly after now. -/
def futureEntries (schedule : List Row) (now_utc : Int) : List Row :=
  (parsedEntries schedule).filter (fun r => decide (startInstant r > now_utc))

/-- Stable insertion of `a` into a list sorted by `key`: `a` goes after
every element with a key at most its own. -/
def stableInsert {α : Type} (key : α → Int) (a : α) : List α → List α
  | [] => [a]
  | b :: rest =>
      if key b < key a then b :: stableInsert key a rest else a :: b :: rest

/-- Python `sorted(l, key=key)`: a stable sort. -/
def stableSort {α : Type} (key : α → Int) : List α → List α
  | [] => []
  | a :: rest => stableInsert key a (stableSort key rest)

/-- The status summary: the chosen next match (its `match_id` and `url`
fields) and the active matches with their reported row counts. -/
structure Summary where
  next_match : Option (Option SVal × Option SVal)
  active_matches : List (String × Option SVal × Nat)
deriving DecidableEq

/-- `summarize_status(schedule, now_utc)` of `run_schedule.py`, under a file
environment `fs` giving the state of each dataset file.  Returns the summary
together with the schedule list as the call leaves it (its rows mutated in
place).  Rendered IST strings and the generated-at clock reads are omitted
as formatting. -/
def summarize_status (schedule : List Row) (fs : String → FileState) (now_utc : Int) :
    Summary × List Row :=
  let entries := parsedEntries schedule
  let future := entries.filter (fun r => decide (startInstant r > now_utc))
  let next :=
    match stableSort startInstant future with
    | [] => none
    | nm :: _ => some (rget nm "match_id", rget nm "url")
  let active := entries.filter (fun r => is_active r now_utc)
  let activeList := active.map (fun a =>
    let mid := pyStr (rget a "match_id")
    (mid, rget a "url", fileRows (fs mid)))
  (⟨next, activeList⟩, schedule.map normalizeRow)

end Sched

namespace Scraper

mutual

theorem extract_eq_filter :
    ∀ d : J, extract_valid_entries d = (preorder d).filter isEventNode
  | .null => rfl
  | .bool _ => rfl
  | .num _ => rfl
  | .str _ => rfl
  | .arr elems => by
      simp [extract_valid_entries, preorder, List.filter_cons, isEventNode,
        extractList_eq_filter elems]
  | .obj fields => by
      simp only [extract_valid_entries, preorder, List.filter_cons, isEventNode,
        extractFields_eq_filter fields]
      by_cases h : requiredSubset fields <;> simp [h]

theorem extractFields_eq_filter :
    ∀ fs : List (String × J), extractFields fs = (preorderFields fs).filter isEventNode
  | [] => rfl
  | (_, v) :: rest => by
      simp only [extractFields, preorderFields, List.filter_append,
        extract_eq_filter v, extractFields_eq_filter rest]

theorem extractList_eq_filter :
    ∀ l : List J, extractList l = (preorderList l).filter isEventNode
  | [] => rfl
  | x :: rest => by
      simp only [extractList, preorderList, List.filter_append,
        extract_eq_filter x, extractList_eq_filter rest]

end

theorem lastFind_append (l1 l2 : List (J × IdEntry)) (q : J) :
    lastFind (l1 ++ l2) q =
      match lastFind l2 q with
      | some v => some v
      | none => lastFind l1 q := by
  induction l1 with
  | nil =>
      simp only [List.nil_append, lastFind]
      cases lastFind l2 q <;> rfl
  | cons p rest ih =>
      have h1 : lastFind ((p :: rest) ++ l2) q =
          match lastFind (rest ++ l2) q with
          | some v => some v
          | none => if q = p.1 then some p.2 else none := rfl
      have h2 : lastFind (p :: rest) q =
          match lastFind rest q with
          | some v => some v
          | none => if q = p.1 then some p.2 else none := rfl
      rw [h1, ih, h2]
      cases lastFind l2 q <;> cases lastFind rest q <;> rfl

theorem entryMap_eq_lastFind (o : Option (J × IdEntry)) (q : J) :
    entryMap o q = lastFind o.toList q := by
  cases o with
  | none => rfl
  | some p =>
      cases p with
      | mk k v => simp only [entryMap, Option.toList, lastFind]

mutual

theorem mapping_eq_lastFind :
    ∀ (d : J) (q : J), extract_object_id_mapping d q = lastFind (idEntries d) q
  | .null, q => rfl
  | .bool _, q => rfl
  | .num _, q => rfl
  | .str _, q => rfl
  | .arr elems, q => mappingList_eq_lastFind elems q
  | .obj fields, q => by
      simp only [extract_object_id_mapping, idEntries, lastFind_append, updOver,
        mappingFields_eq_lastFind fields q, entryMap_eq_lastFind]

theorem mappingFields_eq_lastFind :
    ∀ (fs : List (String × J)) (q : J), mappingFields fs q = lastFind (idEntriesFields fs) q
  | [], _ => rfl
  | (_, v) :: rest, q => by
      simp only [mappingFields, idEntriesFields, lastFind_append, updOver,
        mapping_eq_lastFind v q, mappingFields_eq_lastFind rest q]

theorem mappingList_eq_lastFind :
    ∀ (l : List J) (q : J), mappingList l q = lastFind (idEntriesList l) q
  | [], _ => rfl
  | x :: rest, q => by
      simp only [mappingList, idEntriesList, lastFind_append, updOver,
        mapping_eq_lastFind x q, mappingList_eq_lastFind rest q]

end

theorem mappingFields_isSome_of_mem (fs : List (String × J)) (s : String) (w : J) (q : J)
    (hm : (s, w) ∈ fs) (hw : (extract_object_id_mapping w q).isSome = true) :
    (mappingFields fs q).isSome = true := by
  induction fs with
  | nil => cases hm
  | cons p rest ih =>
      cases p with
      | mk s' w' =>
          simp only [mappingFields, updOver]
          cases hr : mappingFields rest q with
          | some v => rfl
          | none =>
              rcases List.mem_cons.mp hm with h | h
              · cases h
                exact hw
              · have := ih h
                rw [hr] at this
                exact absurd this (by simp)

theorem entryMap_some_inv (o : Option (J × IdEntry)) (q : J) (v : IdEntry)
    (h : entryMap o q = some v) : o = some (q, v) := by
  cases o with
  | none => cases h
  | some p =>
      cases p with
      | mk k w =>
          by_cases hqk : q = k
          · simp only [entryMap] at h
            rw [if_pos hqk] at h
            injection h with hwv
            rw [hqk, hwv]
          · simp only [entryMap] at h
            rw [if_neg hqk] at h
            cases h

theorem player_mapped_in_children (fields : List (String × J)) (k : J) (v : IdEntry)
    (hp : playerEntry fields = some (k, v)) :
    (mappingFields fields k).isSome = true := by
  unfold playerEntry at hp
  split at hp
  next s p heq =>
    have hmem : (s, J.obj p) ∈ fields := List.mem_of_find?_eq_some heq
    apply mappingFields_isSome_of_mem fields s (J.obj p) k hmem
    simp only [extract_object_id_mapping, updOver]
    cases hc : mappingFields p k with
    | some w => rfl
    | none =>
        cases hpp : entryMap (playerEntry p) k with
        | some w => rfl
        | none => simp [entryMap, hp]
  next => cases hp

mutual

theorem mapping_eq_noplayer :
    ∀ (d : J) (q : J), extract_object_id_mapping d q = mappingNoPlayer d q
  | .null, q => rfl
  | .bool _, q => rfl
  | .num _, q => rfl
  | .str _, q => rfl
  | .arr elems, q => mappingList_eq_np elems q
  | .obj fields, q => by
      simp only [extract_object_id_mapping, mappingNoPlayer,
        ← mappingFields_eq_np fields q, updOver]
      cases hc : mappingFields fields q with
      | some v => rfl
      | none =>
          cases hpe : entryMap (playerEntry fields) q with
          | none => rfl
          | some v =>
              exfalso
              have ho := entryMap_some_inv _ _ _ hpe
              have hs := player_mapped_in_children fields q v ho
              rw [hc] at hs
              exact absurd hs (by simp)

theorem mappingFields_eq_np :
    ∀ (fs : List (String × J)) (q : J), mappingFields fs q = mappingNPFields fs q
  | [], _ => rfl
  | (_, v) :: rest, q => by
      simp only [mappingFields, mappingNPFields, updOver,
        mapping_eq_noplayer v q, mappingFields_eq_np rest q]

theorem mappingList_eq_np :
    ∀ (l : List J) (q : J), mappingList l q = mappingNPList l q
  | [], _ => rfl
  | x :: rest, q => by
      simp only [mappingList, mappingNPList, updOver,
        mapping_eq_noplayer x q, mappingList_eq_np rest q]

end

/-- C2: on every nested document, `extract_valid_entries` returns exactly the
map nodes whose key set contains the whole required-field set, in pre-order
(depth-first) traversal order; traversal continues into the children of a
captured node, and list nodes are traversed but never captured (the filtered
pre-order enumeration keeps only map nodes passing the key test, in
traversal order). -/
theorem extract_events_preorder_filter (d : J) :
    extract_valid_entries d = (preorder d).filter isEventNode :=
  extract_eq_filter d

/-- C4: the identity map keys every entry by the node id, holding its
objectId and first-available name, and on duplicate ids the last-visited
occurrence wins: the final mapping agrees with the last binding of the
visit-order binding list at every key; in particular id 7 seen first with
objectId "abc" and name "X" and later with objectId "def" and name "Y"
finally maps to objectId "def", name "Y", and a node offering only
fullName resolves its name to that fullName. -/
theorem identity_map_last_visit_wins :
    (∀ (d : J) (q : J), extract_object_id_mapping d q = lastFind (idEntries d) q)
    ∧ extract_object_id_mapping
        (J.arr [J.obj [("id", J.num 7), ("objectId", J.str "abc"), ("name", J.str "X")],
                J.obj [("id", J.num 7), ("objectId", J.str "def"), ("name", J.str "Y")]])
        (J.num 7) = some ⟨J.str "def", J.str "Y"⟩
    ∧ extract_object_id_mapping
        (J.obj [("id", J.num 3), ("objectId", J.str "z"), ("fullName", J.str "Full")])
        (J.num 3) = some ⟨J.str "z", J.str "Full"⟩ :=
  ⟨mapping_eq_lastFind, by decide, by decide⟩

/-- C10: the nested-"player" clause of `extract_object_id_mapping` is
redundant: on every document the mapping is extensionally equal to the
variant with the clause removed, because the recursion into the values of a
node visits the player sub-map itself and records the identical entry
later. -/
theorem player_clause_redundant :
    ∀ (d : J) (q : J), extract_object_id_mapping d q = mappingNoPlayer d q :=
  mapping_eq_noplayer

end Scraper

namespace Store

section KeepLastLemmas

variable {α κ : Type} [DecidableEq κ] (f : α → κ)

theorem keepLast_sublist : ∀ l : List α, List.Sublist (keepLast f l) l
  | [] => by simp [keepLast]
  | a :: rest => by
      by_cases h : rest.any (fun b => decide (f b = f a)) = true
      · simp only [keepLast, if_pos h]
        exact (keepLast_sublist rest).cons _
      · simp only [keepLast, if_neg h]
        exact (keepLast_sublist rest).cons₂ _

theorem mem_of_mem_keepLast {l : List α} {b : α} (h : b ∈ keepLast f l) : b ∈ l :=
  (keepLast_sublist f l).subset h

theorem keepLast_pairwise : ∀ l : List α, (keepLast f l).Pairwise (fun a b => f a ≠ f b)
  | [] => by simp [keepLast]
  | a :: rest => by
      by_cases h : rest.any (fun b => decide (f b = f a)) = true
      · simp only [keepLast, if_pos h]
        exact keepLast_pairwise rest
      · simp only [keepLast, if_neg h]
        refine List.Pairwise.cons ?_ (keepLast_pairwise rest)
        intro b hb heq
        exact h (List.any_eq_true.mpr
          ⟨b, mem_of_mem_keepLast f hb, by simp [heq]⟩)

theorem lastWith_isSome (k : κ) :
    ∀ l : List α, (lastWith f k l).isSome = true ↔ ∃ a ∈ l, f a = k
  | [] => by simp [lastWith]
  | a :: rest => by
      rw [show lastWith f k (a :: rest) =
          (match lastWith f k rest with
           | some b => some b
           | none => if f a = k then some a else none) from rfl]
      cases hlw : lastWith f k rest with
      | some b =>
          have hex := (lastWith_isSome k rest).mp (by rw [hlw]; rfl)
          simp only [Option.isSome_some, true_iff]
          obtain ⟨c, hc, hck⟩ := hex
          exact ⟨c, List.mem_cons_of_mem a hc, hck⟩
      | none =>
          have hnex : ¬∃ a ∈ rest, f a = k := by
            intro hc
            have := (lastWith_isSome k rest).mpr hc
            rw [hlw] at this
            cases this
          by_cases hk : f a = k
          · simp only [if_pos hk, Option.isSome_some, true_iff]
            exact ⟨a, List.mem_cons_self a rest, hk⟩
          · simp only [if_neg hk, Option.isSome_none]
            constructor
            · intro hc
              cases hc
            · intro ⟨c, hc, hck⟩
              rcases List.mem_cons.mp hc with rfl | hc'
              · exact absurd hck hk
              · exact absurd ⟨c, hc', hck⟩ hnex

theorem lastWith_append (k : κ) :
    ∀ l1 l2 : List α, lastWith f k (l1 ++ l2) =
      match lastWith f k l2 with
      | some b => some b
      | none => lastWith f k l1
  | [], l2 => by
      simp only [List.nil_append, lastWith]
      cases lastWith f k l2 <;> rfl
  | a :: rest, l2 => by
      have h1 : lastWith f k ((a :: rest) ++ l2) =
          match lastWith f k (rest ++ l2) with
          | some b => some b
          | none => if f a = k then some a else none := rfl
      have h2 : lastWith f k (a :: rest) =
          match lastWith f k rest with
          | some b => some b
          | none => if f a = k then some a else none := rfl
      rw [h1, lastWith_append k rest l2, h2]
      cases lastWith f k l2 <;> cases lastWith f k rest <;> rfl

theorem keepLast_find (k : κ) :
    ∀ l : List α, (∃ a ∈ l, f a = k) →
      (keepLast f l).find? (fun a => decide (f a = k)) = lastWith f k l
  | [], h => by simp at h
  | x :: rest, h => by
      have hcons : lastWith f k (x :: rest) =
          match lastWith f k rest with
          | some b => some b
          | none => if f x = k then some x else none := rfl
      by_cases hany : rest.any (fun b => decide (f b = f x)) = true
      · simp only [keepLast, if_pos hany]
        have hex : ∃ a ∈ rest, f a = k := by
          by_cases hk : f x = k
          · obtain ⟨b, hb, hbx⟩ := List.any_eq_true.mp hany
            exact ⟨b, hb, by rw [of_decide_eq_true hbx, hk]⟩
          · obtain ⟨a, ha, hak⟩ := h
            rcases List.mem_cons.mp ha with rfl | ha'
            · exact absurd hak hk
            · exact ⟨a, ha', hak⟩
        rw [keepLast_find k rest hex, hcons]
        have hsome := (lastWith_isSome f k rest).mpr hex
        cases hlw : lastWith f k rest with
        | some c => rfl
        | none => rw [hlw] at hsome; cases hsome
      · simp only [keepLast, if_neg hany]
        by_cases hk : f x = k
        · have hnone : lastWith f k rest = none := by
            cases hlw : lastWith f k rest with
            | none => rfl
            | some c =>
                obtain ⟨a, ha, hak⟩ :=
                  (lastWith_isSome f k rest).mp (by rw [hlw]; rfl)
                exact absurd
                  (List.any_eq_true.mpr ⟨a, ha, by simp [hak, hk]⟩) hany
          rw [List.find?_cons_of_pos _ (by simp [hk]), hcons, hnone, if_pos hk]
        · have hex : ∃ a ∈ rest, f a = k := by
            obtain ⟨a, ha, hak⟩ := h
            rcases List.mem_cons.mp ha with rfl | ha'
            · exact absurd hak hk
            · exact ⟨a, ha', hak⟩
          rw [List.find?_cons_of_neg _ (by simp [hk]), keepLast_find k rest hex, hcons]
          have hsome := (lastWith_isSome f k rest).mpr hex
          cases hlw : lastWith f k rest with
          | some c => rfl
          | none => rw [hlw] at hsome; cases hsome

theorem keepLast_append_subsumed :
    ∀ d R : List α, (∀ a ∈ d, ∃ b ∈ R, f b = f a) → keepLast f (d ++ R) = keepLast f R
  | [], R, _ => by simp
  | x :: d', R, h => by
      have hany : (d' ++ R).any (fun b => decide (f b = f x)) = true := by
        obtain ⟨b, hb, hbf⟩ := h x (List.mem_cons_self x d')
        exact List.any_eq_true.mpr ⟨b, List.mem_append_right d' hb, by simp [hbf]⟩
      simp only [List.cons_append, keepLast, List.append_eq]
      rw [if_pos hany]
      exact keepLast_append_subsumed d' R (fun a ha => h a (List.mem_cons_of_mem x ha))

theorem keepLast_append_self :
    ∀ s R : List α, keepLast f (keepLast f (s ++ R) ++ R) = keepLast f (s ++ R)
  | [], R => by
      show keepLast f (keepLast f R ++ R) = keepLast f R
      exact keepLast_append_subsumed f (keepLast f R) R
        (fun a ha => ⟨a, mem_of_mem_keepLast f ha, rfl⟩)
  | x :: s', R => by
      by_cases h : (s' ++ R).any (fun b => decide (f b = f x)) = true
      · simp only [List.cons_append, keepLast, List.append_eq]
        rw [if_pos h]
        exact keepLast_append_self s' R
      · simp only [List.cons_append, keepLast, List.append_eq]
        rw [if_neg h]
        have h2 : ¬(keepLast f (s' ++ R) ++ R).any (fun b => decide (f b = f x)) = true := by
          intro hc
          obtain ⟨b, hb, hbf⟩ := List.any_eq_true.mp hc
          apply h
          apply List.any_eq_true.mpr
          rcases List.mem_append.mp hb with hb1 | hb2
          · exact ⟨b, mem_of_mem_keepLast f hb1, hbf⟩
          · exact ⟨b, List.mem_append_right s' hb2, hbf⟩
        have h3 : keepLast f ((x :: keepLast f (s' ++ R)) ++ R) =
            if (keepLast f (s' ++ R) ++ R).any (fun b => decide (f b = f x)) = true then
              keepLast f (keepLast f (s' ++ R) ++ R)
            else x :: keepLast f (keepLast f (s' ++ R) ++ R) := rfl
        rw [h3, if_neg h2, keepLast_append_self s' R]

end KeepLastLemmas

theorem unionCols_absorb (a b : List String) : unionCols (unionCols a b) b = unionCols a b := by
  unfold unionCols
  have hnil : b.filter
      (fun c => !(a ++ b.filter (fun c => !a.contains c)).contains c) = [] := by
    rw [List.filter_eq_nil_iff]
    intro c hc
    simp only [Bool.not_eq_true', Bool.not_eq_false]
    have hmem : c ∈ a ++ b.filter (fun c => !a.contains c) := by
      by_cases ha : a.contains c = true
      · exact List.mem_append_left _ (by simpa using ha)
      · refine List.mem_append_right _ ?_
        rw [List.mem_filter]
        exact ⟨hc, by simpa using ha⟩
    simpa using hmem
  rw [hnil, List.append_nil]

theorem mem_unionCols_right (a b : List String) (c : String) (hc : c ∈ b) :
    c ∈ unionCols a b := by
  unfold unionCols
  by_cases ha : a.contains c = true
  · exact List.mem_append_left _ (by simpa using ha)
  · exact List.mem_append_right _ (List.mem_filter.mpr ⟨hc, by simpa using ha⟩)

/-- C7: appending an empty new-record frame returns `written = false` and
leaves the persisted dataset unchanged; beyond the read of the existing
dataset no write occurs (the function is the identity on the store). -/
theorem append_empty_noop {V : Type} [DecidableEq V] (stored : DF V) (cols : List String) :
    append_and_save stored ⟨cols, []⟩ = (stored, false) :=
  rfl

/-- C3: `append` is idempotent — appending the same new-record frame twice
leaves the persisted dataset equal to what a single call produces. -/
theorem append_idempotent {V : Type} [DecidableEq V] (stored R : DF V) :
    (append_and_save (append_and_save stored R).1 R).1 = (append_and_save stored R).1 := by
  obtain ⟨sc, sr⟩ := stored
  obtain ⟨rc, rr⟩ := R
  by_cases hR : rr.isEmpty = true
  · simp [append_and_save, hR]
  · have h1 : append_and_save (⟨sc, sr⟩ : DF V) ⟨rc, rr⟩ =
        (⟨unionCols sc rc,
          keepLast (keyOf (mergeSubset (unionCols sc rc))) (sr ++ rr)⟩, true) := by
      unfold append_and_save
      rw [if_neg hR]
    have h2 : append_and_save
        (⟨unionCols sc rc,
          keepLast (keyOf (mergeSubset (unionCols sc rc))) (sr ++ rr)⟩ : DF V)
        ⟨rc, rr⟩ =
        (⟨unionCols (unionCols sc rc) rc,
          keepLast (keyOf (mergeSubset (unionCols (unionCols sc rc) rc)))
            (keepLast (keyOf (mergeSubset (unionCols sc rc))) (sr ++ rr) ++ rr)⟩, true) := by
      unfold append_and_save
      rw [if_neg hR]
    rw [h1, h2]
    simp only [unionCols_absorb]
    rw [keepLast_append_self]

/-- C1: after `append(id, R1)` then `append(id, R2)` with the natural-key
columns present in R2 and R2 nonempty, the persisted dataset holds no two
rows with the same natural key, and at every natural key occurring in R2
the stored row is the last row of R2 with that key (last write wins). -/
theorem append_last_write_wins {V : Type} [DecidableEq V] (stored R1 R2 : DF V)
    (hcols : ∀ c ∈ NATURAL_COLS, c ∈ R2.cols) (hne : R2.rows ≠ []) :
    ((append_and_save (append_and_save stored R1).1 R2).1).rows.Pairwise
        (fun a b => natKey a ≠ natKey b)
    ∧ ∀ r ∈ R2.rows,
        ((append_and_save (append_and_save stored R1).1 R2).1).rows.find?
            (fun a => decide (natKey a = natKey r))
          = lastWith natKey (natKey r) R2.rows := by
  have hR : ¬R2.rows.isEmpty = true := by
    simpa [List.isEmpty_iff] using hne
  set d1 : DF V := (append_and_save stored R1).1 with hd1
  have hdrop : NATURAL_COLS.filter
      (fun c => (unionCols d1.cols R2.cols).contains c) = NATURAL_COLS := by
    rw [List.filter_eq_self]
    intro c hc
    have hm : c ∈ unionCols d1.cols R2.cols :=
      mem_unionCols_right _ _ _ (hcols c hc)
    simpa using hm
  have hsub : mergeSubset (unionCols d1.cols R2.cols) = NATURAL_COLS := by
    unfold mergeSubset
    rw [hdrop]
    rfl
  have happ : append_and_save d1 R2 =
      (⟨unionCols d1.cols R2.cols, keepLast natKey (d1.rows ++ R2.rows)⟩, true) := by
    unfold append_and_save
    rw [if_neg hR]
    show ((⟨unionCols d1.cols R2.cols,
        keepLast (keyOf (mergeSubset (unionCols d1.cols R2.cols)))
          (d1.rows ++ R2.rows)⟩ : DF V), true) =
      ((⟨unionCols d1.cols R2.cols, keepLast natKey (d1.rows ++ R2.rows)⟩ : DF V), true)
    rw [hsub]
    rfl
  rw [happ]
  constructor
  · exact keepLast_pairwise natKey _
  · intro r hr
    have hex : ∃ a ∈ d1.rows ++ R2.rows, natKey a = natKey r :=
      ⟨r, List.mem_append_right _ hr, rfl⟩
    rw [keepLast_find natKey (natKey r) _ hex, lastWith_append]
    have hsome := (lastWith_isSome natKey (natKey r) R2.rows).mpr ⟨r, hr, rfl⟩
    cases hlw : lastWith natKey (natKey r) R2.rows with
    | some b => rfl
    | none =>
        rw [hlw] at hsome
        cases hsome

/-- Concrete frames exercising `append_last_write_wins`. -/
def wStored : DF Int := ⟨[], []⟩

/-- First scraped frame: one row with natural key (1,1,1) and x = 10. -/
def wR1 : DF Int :=
  ⟨["inningNumber", "overNumber", "ballNumber", "x"],
   [[("inningNumber", some 1), ("overNumber", some 1), ("ballNumber", some 1),
     ("x", some 10)]]⟩

/-- Second scraped frame: two rows with the same natural key (1,1,1),
x = 20 then x = 30. -/
def wR2 : DF Int :=
  ⟨["inningNumber", "overNumber", "ballNumber", "x"],
   [[("inningNumber", some 1), ("overNumber", some 1), ("ballNumber", some 1),
     ("x", some 20)],
    [("inningNumber", some 1), ("overNumber", some 1), ("ballNumber", some 1),
     ("x", some 30)]]⟩

/-- Witness for C1 at the concrete frames above. -/
theorem append_last_write_wins_witness :
    (∀ c ∈ NATURAL_COLS, c ∈ wR2.cols) ∧ wR2.rows ≠ [] ∧
    (((append_and_save (append_and_save wStored wR1).1 wR2).1).rows.Pairwise
        (fun a b => natKey a ≠ natKey b)
     ∧ ∀ r ∈ wR2.rows,
        ((append_and_save (append_and_save wStored wR1).1 wR2).1).rows.find?
            (fun a => decide (natKey a = natKey r))
          = lastWith natKey (natKey r) wR2.rows) :=
  ⟨by decide, by decide,
   append_last_write_wins wStored wR1 wR2 (by decide) (by decide)⟩

end Store

namespace Sched

/-- C5: `is_active` is true exactly when both entry times parse and the UTC
instant lies between the UTC start and end, inclusive at both boundaries;
when either time fails to parse it is false (the function is total, so the
parse failure never escapes). -/
theorem is_active_iff :
    (∀ (r : Row) (now : Int) (s e : AwareDT),
        parseField r "start_time" = some s → parseField r "end_time" = some e →
        (is_active r now = true ↔ (toUTC s ≤ now ∧ now ≤ toUTC e)))
    ∧ (∀ (r : Row) (now : Int),
        parseField r "start_time" = none ∨ parseField r "end_time" = none →
        is_active r now = false) := by
  constructor
  · intro r now s e hs he
    unfold is_active
    rw [hs, he]
    simp
  · intro r now h
    unfold is_active
    rcases h with h | h
    · rw [h]
    · rw [h]
      cases parseField r "start_time" <;> rfl

/-- A row whose start and end both equal 2024-03-01 20:00 IST. -/
def wRow : Row :=
  [("match_id", SVal.s "M1"), ("url", SVal.s "u"),
   ("start_time", SVal.s "2024-03-01T20:00:00"),
   ("end_time", SVal.s "2024-03-01T20:00:00")]

/-- Witness for C5: at the shared boundary instant the entry is active, and
an entry with an unparseable or missing time is inactive. -/
theorem is_active_iff_witness :
    is_active wRow (civilSecs 2024 3 1 14 30 0) = true ∧
    is_active [("start_time", SVal.s "garbage")] 0 = false :=
  ⟨(is_active_iff.1 wRow (civilSecs 2024 3 1 14 30 0)
      ⟨civilSecs 2024 3 1 20 0 0, IST_OFFSET⟩ ⟨civilSecs 2024 3 1 20 0 0, IST_OFFSET⟩
      (by decide) (by decide)).mpr (by decide),
   is_active_iff.2 [("start_time", SVal.s "garbage")] 0 (Or.inr (by decide))⟩

/-- C6: a timestamp without explicit zone information resolves with the IST
offset (UTC+5:30); one with explicit zone information keeps its stated
offset; in particular "2024-03-01T20:00:00" resolves to wall-clock
2024-03-01 20:00:00 at IST, whose UTC instant equals 2024-03-01 14:30:00. -/
theorem ist_default_zone :
    (∀ (t : String) (p : ParsedTS), isoparse t = some p → p.tzoff = none →
        parse_time_guess_ist t = some ⟨p.naive, IST_OFFSET⟩)
    ∧ (∀ (t : String) (p : ParsedTS) (z : Int), isoparse t = some p → p.tzoff = some z →
        parse_time_guess_ist t = some ⟨p.naive, z⟩)
    ∧ parse_time_guess_ist "2024-03-01T20:00:00"
        = some ⟨civilSecs 2024 3 1 20 0 0, IST_OFFSET⟩
    ∧ (parse_time_guess_ist "2024-03-01T20:00:00").map toUTC
        = some (civilSecs 2024 3 1 14 30 0) := by
  refine ⟨?_, ?_, by decide, by decide⟩
  · intro t p hp htz
    unfold parse_time_guess_ist
    rw [hp]
    show (some ⟨p.naive, p.tzoff.getD IST_OFFSET⟩ : Option AwareDT)
      = some ⟨p.naive, IST_OFFSET⟩
    rw [htz]
    rfl
  · intro t p z hp htz
    unfold parse_time_guess_ist
    rw [hp]
    show (some ⟨p.naive, p.tzoff.getD IST_OFFSET⟩ : Option AwareDT)
      = some ⟨p.naive, z⟩
    rw [htz]
    rfl

/-- Witness for C6 applying the general no-zone clause at the concrete
string of the claim. -/
theorem ist_default_zone_witness :
    parse_time_guess_ist "2024-03-01T20:00:00"
      = some ⟨civilSecs 2024 3 1 20 0 0, IST_OFFSET⟩ :=
  ist_default_zone.1 "2024-03-01T20:00:00" ⟨civilSecs 2024 3 1 20 0 0, none⟩
    (by decide) rfl

theorem stableInsert_ne_nil {α : Type} (key : α → Int) (a : α) :
    ∀ l : List α, stableInsert key a l ≠ []
  | [] => by simp [stableInsert]
  | b :: rest => by
      unfold stableInsert
      split <;> simp

theorem find?_congr_pred {α : Type} (p q : α → Bool) :
    ∀ l : List α, (∀ x ∈ l, p x = q x) → l.find? p = l.find? q
  | [], _ => rfl
  | a :: rest, h => by
      have ha := h a (List.mem_cons_self a rest)
      by_cases hp : p a = true
      · rw [List.find?_cons_of_pos _ hp, List.find?_cons_of_pos _ (ha ▸ hp)]
      · have hq : ¬q a = true := by
          rw [← ha]
          exact hp
        rw [List.find?_cons_of_neg _ hp, List.find?_cons_of_neg _ hq]
        exact find?_congr_pred p q rest (fun x hx => h x (List.mem_cons_of_mem a hx))

theorem head?_stableSort {α : Type} (key : α → Int) :
    ∀ l : List α, (stableSort key l).head? =
      l.find? (fun a => l.all (fun b => decide (key a ≤ key b)))
  | [] => rfl
  | a :: rest => by
      cases hs : stableSort key rest with
      | nil =>
          have hrest : rest = [] := by
            cases rest with
            | nil => rfl
            | cons x xs =>
                exact absurd hs (stableInsert_ne_nil key x (stableSort key xs))
          subst hrest
          simp [stableSort, stableInsert]
      | cons b t =>
          have ih := head?_stableSort key rest
          rw [hs] at ih
          have hfind : rest.find?
              (fun x => rest.all (fun y => decide (key x ≤ key y))) = some b := ih.symm
          have hb_mem : b ∈ rest := List.mem_of_find?_eq_some hfind
          have hpb0 := List.find?_some hfind
          have hpb : rest.all (fun y => decide (key b ≤ key y)) = true := hpb0
          have hb_min : ∀ y ∈ rest, key b ≤ key y := by
            intro y hy
            exact of_decide_eq_true (List.all_eq_true.mp hpb y hy)
          show (stableInsert key a (stableSort key rest)).head? = _
          rw [hs]
          unfold stableInsert
          by_cases hba : key b < key a
          · rw [if_pos hba]
            have hpa : ¬((a :: rest).all (fun y => decide (key a ≤ key y)) = true) := by
              intro hall
              have := of_decide_eq_true
                (List.all_eq_true.mp hall b (List.mem_cons_of_mem a hb_mem))
              exact absurd this (not_le.mpr hba)
            rw [List.find?_cons_of_neg]
            · have hcongr : ∀ x ∈ rest,
                  ((a :: rest).all (fun y => decide (key x ≤ key y)))
                    = (rest.all (fun y => decide (key x ≤ key y))) := by
                intro x hx
                rw [List.all_cons]
                cases hrx : rest.all (fun y => decide (key x ≤ key y)) with
                | false => simp
                | true =>
                    have hxb : key x ≤ key b :=
                      of_decide_eq_true (List.all_eq_true.mp hrx b hb_mem)
                    have hxa : key x ≤ key a := le_trans hxb (le_of_lt hba)
                    simp [hxa]
              rw [find?_congr_pred _ _ rest hcongr, hfind]
              rfl
            · exact hpa
          · rw [if_neg hba]
            have hpa : ((a :: rest).all (fun y => decide (key a ≤ key y))) = true := by
              apply List.all_eq_true.mpr
              intro y hy
              rcases List.mem_cons.mp hy with rfl | hy'
              · simp
              · exact decide_eq_true (le_trans (not_lt.mp hba) (hb_min y hy'))
            rw [List.find?_cons_of_pos]
            · rfl
            · exact hpa

/-- C8: the summary picks as next match the first entry attaining the
minimum start instant among the parseable entries starting strictly after
now (ties resolved by original schedule order), none when there is no such
entry; every active entry is reported with the row count of its dataset
file, zero when the file is absent or unreadable; and the concrete one-entry
scenario (start one hour ago, end in one hour, dataset file absent) yields
that single active match with row count 0 and no next match. -/
theorem summarize_status_correct (schedule : List Row) (fs : String → FileState) (now : Int) :
    ((summarize_status schedule fs now).1.next_match =
      ((futureEntries schedule now).find? (fun e => (futureEntries schedule now).all
          (fun e2 => decide (startInstant e ≤ startInstant e2)))).map
        (fun nm => (rget nm "match_id", rget nm "url")))
    ∧ ((summarize_status schedule fs now).1.active_matches =
        ((parsedEntries schedule).filter (fun r => is_active r now)).map (fun a =>
          (pyStr (rget a "match_id"), rget a "url", fileRows (fs (pyStr (rget a "match_id"))))))
    ∧ (summarize_status
        [[("match_id", SVal.s "M1"), ("url", SVal.s "u"),
          ("start_time", SVal.s "2024-03-01T20:00:00"),
          ("end_time", SVal.s "2024-03-01T22:00:00")]]
        (fun _ => FileState.absent) (civilSecs 2024 3 1 15 30 0)).1 =
      ⟨none, [("M1", some (SVal.s "u"), 0)]⟩ := by
  refine ⟨?_, rfl, by decide⟩
  show (match stableSort startInstant (futureEntries schedule now) with
        | [] => none
        | nm :: _ => some (rget nm "match_id", rget nm "url")) =
    ((futureEntries schedule now).find? (fun e => (futureEntries schedule now).all
        (fun e2 => decide (startInstant e ≤ startInstant e2)))).map
      (fun nm => (rget nm "match_id", rget nm "url"))
  rw [← head?_stableSort]
  cases stableSort startInstant (futureEntries schedule now) <;> rfl

/-- C9 counterexample: the summary does not leave schedule entries
unchanged — the call adds a `_start_dt` field (and an `_end_dt` field) to
every entry whose times parse, so the schedule list after the call differs
from the input. -/
theorem summarize_mutates_schedule :
    (summarize_status
        [[("match_id", SVal.s "M1"), ("url", SVal.s "u"),
          ("start_time", SVal.s "2024-03-01T20:00:00"),
          ("end_time", SVal.s "2024-03-01T22:00:00")]]
        (fun _ => FileState.absent) 0).2 ≠
      [[("match_id", SVal.s "M1"), ("url", SVal.s "u"),
        ("start_time", SVal.s "2024-03-01T20:00:00"),
        ("end_time", SVal.s "2024-03-01T22:00:00")]] := by decide

theorem rget_cons (x : String × SVal) (r : Row) (k : String) :
    rget (x :: r) k = if (x.1 == k) = true then some x.2 else rget r k := by
  unfold rget
  rw [List.find?_cons]
  cases hx : (x.1 == k) <;> rfl

theorem rget_map_overwrite (r : Row) (k q : String) (v : SVal) (h : k ≠ q) :
    rget (r.map (fun p => if p.1 == q then (q, v) else p)) k = rget r k := by
  have hqk : ¬((q == k) = true) := by
    simp only [beq_iff_eq]
    intro hqk
    exact h hqk.symm
  induction r with
  | nil => rfl
  | cons p rest ih =>
      by_cases hpq : (p.1 == q) = true
      · have hp1 : p.1 = q := by simpa using hpq
        simp only [List.map_cons, if_pos hpq]
        rw [rget_cons, rget_cons, if_neg hqk, if_neg (by simpa [hp1] using hqk)]
        exact ih
      · simp only [List.map_cons, if_neg hpq]
        rw [rget_cons, rget_cons]
        by_cases hpk : (p.1 == k) = true
        · rw [if_pos hpk, if_pos hpk]
        · rw [if_neg hpk, if_neg hpk]
          exact ih

theorem rget_append_single (r : Row) (k q : String) (v : SVal)
    (hqk : ¬((q == k) = true)) : rget (r ++ [(q, v)]) k = rget r k := by
  induction r with
  | nil =>
      show rget [(q, v)] k = rget [] k
      rw [rget_cons, if_neg hqk]
  | cons p rest ih =>
      show rget (p :: (rest ++ [(q, v)])) k = rget (p :: rest) k
      rw [rget_cons, rget_cons]
      by_cases hpk : (p.1 == k) = true
      · rw [if_pos hpk, if_pos hpk]
      · rw [if_neg hpk, if_neg hpk]
        exact ih

theorem rget_rset_ne (r : Row) (k q : String) (v : SVal) (h : k ≠ q) :
    rget (rset r q v) k = rget r k := by
  have hqk : ¬((q == k) = true) := by
    simp only [beq_iff_eq]
    intro hqk
    exact h hqk.symm
  unfold rset
  by_cases hany : r.any (fun p => p.1 == q) = true
  · rw [if_pos hany]
    exact rget_map_overwrite r k q v h
  · rw [if_neg hany]
    exact rget_append_single r k q v hqk

/-- C9 (amended): `summarize_status` returns the schedule with each row
passed through `normalizeRow`, which adds or overwrites only the two cache
fields `_start_dt` and `_end_dt`; the value of every other field of every
entry is unchanged, no field is removed, and rows keep their order. -/
theorem summarize_preserves_existing_fields :
    (∀ (schedule : List Row) (fs : String → FileState) (now : Int),
        (summarize_status schedule fs now).2 = schedule.map normalizeRow)
    ∧ (∀ (r : Row) (k : String), k ≠ "_start_dt" → k ≠ "_end_dt" →
        rget (normalizeRow r) k = rget r k) := by
  constructor
  · intro schedule fs now
    rfl
  · intro r k h1 h2
    unfold normalizeRow
    cases parseField r "start_time" with
    | none => cases parseField r "end_time" <;> rfl
    | some s =>
        cases parseField r "end_time" with
        | none => rfl
        | some e =>
            rw [rget_rset_ne _ _ _ _ h2, rget_rset_ne _ _ _ _ h1]

/-- Witness for the amended C9: the match id of the mutated row is the
match id of the original row. -/
theorem summarize_preserves_existing_fields_witness :
    rget (normalizeRow
        [("match_id", SVal.s "M1"), ("url", SVal.s "u"),
         ("start_time", SVal.s "2024-03-01T20:00:00"),
         ("end_time", SVal.s "2024-03-01T22:00:00")]) "match_id" =
      rget [("match_id", SVal.s "M1"), ("url", SVal.s "u"),
        ("start_time", SVal.s "2024-03-01T20:00:00"),
        ("end_time", SVal.s "2024-03-01T22:00:00")] "match_id" :=
  summarize_preserves_existing_fields.2 _ "match_id" (by decide) (by decide)

end Sched
